import Mathlib

/-!
Verification of the OpenScriptures MorphHB import pipeline of
`scripts/import.ts`: the Strong's-number extractor (`extractStrongs`),
the recursive OSIS tree walk (`extractWords` inside `parseOsis`), and
the post-filter applied in `saveVerse`.

Strings are modelled as `List Char`.  The parsed XML tree (the output of
`fast-xml-parser` with `preserveOrder:false`) is modelled by `Node`: a
text leaf, an ordered list, or a keyed map given as an association list
in key-insertion order.  Attribute values are taken as strings, coerced
through the JavaScript string coercion `jsString` when they are not.

The recursive walk is modelled with an explicit recursion budget
(`fuel`): every recursive call decreases the budget by one and an
exhausted budget returns the state unchanged.  The JavaScript walk
always terminates, and a budget of the tree's node count is always
sufficient, so theorems quantified over every budget cover the real
function; concrete runs are evaluated with a manifestly sufficient
budget.
-/

namespace OhbImport

/-- JavaScript whitespace: the regex class `\s` and the set used by
`String.prototype.trim`. -/
def isWs (c : Char) : Bool :=
  c = ' ' || c = '\t' || c = '\n' || c = '\r' ||
  c.toNat = 0x0B || c.toNat = 0x0C || c.toNat = 0xA0 || c.toNat = 0x1680 ||
  (0x2000 ≤ c.toNat && c.toNat ≤ 0x200A) ||
  c.toNat = 0x2028 || c.toNat = 0x2029 || c.toNat = 0x202F ||
  c.toNat = 0x205F || c.toNat = 0x3000 || c.toNat = 0xFEFF

/-- Decimal digit, the regex class `\d`. -/
def isDigitC (c : Char) : Bool :=
  48 ≤ c.toNat && c.toNat ≤ 57

/-- Hebrew maqqef character, `MAQQEF` in `import.ts`. -/
def MAQQEF : Char := Char.ofNat 0x05BE

/-- The `replace` of every literal slash, from the normalization
`content.replace` over `/\//g`. -/
def removeSlashes (s : List Char) : List Char :=
  s.filter (fun c => c ≠ '/')

/-- `String.prototype.trim`. -/
def trimWs (s : List Char) : List Char :=
  ((s.dropWhile isWs).reverse.dropWhile isWs).reverse

/-- Worker for `splitWsTokens`: accumulates the current token reversed. -/
def splitGo : List Char → List Char → List (List Char)
  | [], acc => if acc.isEmpty then [] else [acc.reverse]
  | c :: rest, acc =>
    if isWs c then
      if acc.isEmpty then splitGo rest [] else acc.reverse :: splitGo rest []
    else splitGo rest (c :: acc)

/-- Splitting on runs of whitespace with empty pieces dropped: the
composition `.split` over `/\s+/` followed by `.filter(Boolean)`. -/
def splitWsTokens (s : List Char) : List (List Char) :=
  splitGo s []

/-! ## The Strong's-number extractor

`STRONGS_RE` is the global regex matching an optional literal marker
(`strongs:` preferred over `strong:`), then the captured group: an
optional letter among H, G, h, g followed by a greedy run of one to
five decimal digits.  `extractStrongs` scans the lemma string with
successive `exec` calls and post-processes each captured group. -/

/-- Letter test for the optional H/G prefix class of `STRONGS_RE`. -/
def hgLetter (c : Char) : Bool :=
  c = 'H' || c = 'G' || c = 'h' || c = 'g'

/-- Greedy run of at most `n` decimal digits, returning the run and the
remainder. -/
def takeDigitsUpTo : Nat → List Char → List Char × List Char
  | 0, cs => ([], cs)
  | _ + 1, [] => ([], [])
  | n + 1, c :: cs =>
    if isDigitC c then
      let p := takeDigitsUpTo n cs
      (c :: p.1, p.2)
    else ([], c :: cs)

/-- The captured group of `STRONGS_RE` at the current position: an
optional H/G/h/g letter (kept only when a digit follows, mirroring
regex backtracking) then one to five digits.  Returns the capture and
the remainder of the input. -/
def matchGroup : List Char → Option (List Char × List Char)
  | [] => none
  | c :: cs =>
    if hgLetter c then
      match cs with
      | [] => none
      | d :: _ =>
        if isDigitC d then
          let p := takeDigitsUpTo 5 cs
          some (c :: p.1, p.2)
        else none
    else if isDigitC c then
      let p := takeDigitsUpTo 5 (c :: cs)
      some (p.1, p.2)
    else none

/-- Drops a literal from the front of the input when it is present. -/
def dropLit : List Char → List Char → Option (List Char)
  | [], cs => some cs
  | _ :: _, [] => none
  | p :: ps, c :: cs => if c = p then dropLit ps cs else none

def markerS : List Char := "strongs:".toList

def markerNoS : List Char := "strong:".toList

/-- One attempt of `STRONGS_RE` anchored at the current position, with
the regex backtracking order: marker `strongs:`, marker `strong:`, no
marker. -/
def matchAt (cs : List Char) : Option (List Char × List Char) :=
  match (dropLit markerS cs).bind matchGroup with
  | some r => some r
  | none =>
    match (dropLit markerNoS cs).bind matchGroup with
    | some r => some r
    | none => matchGroup cs

/-- The `exec` loop of a global regex: try each position left to right,
resuming after the end of every successful match.  Every step consumes
at least one character, so a budget of the input length is exact. -/
def scanStrongs : Nat → List Char → List (List Char)
  | 0, _ => []
  | fuel + 1, cs =>
    match cs with
    | [] => []
    | _ :: tail =>
      match matchAt cs with
      | some (tok, rest) => tok :: scanStrongs fuel rest
      | none => scanStrongs fuel tail

/-- First run of at most five digits within a token: the inner
`token.match` over `/\d` one-to-five `/`. -/
def firstDigitRun : List Char → Option (List Char)
  | [] => none
  | c :: cs =>
    if isDigitC c then some (takeDigitsUpTo 5 (c :: cs)).1
    else firstDigitRun cs

/-- `parseInt` base 10 of a digit run. -/
def digitsToNat (ds : List Char) : Nat :=
  ds.foldl (fun a c => a * 10 + (c.toNat - 48)) 0

/-- The body of the `while` loop of `extractStrongs`: uppercased H/G
prefix defaulting to `H`, digits re-rendered without leading zeros. -/
def processToken (token : List Char) : Option (List Char) :=
  match firstDigitRun token with
  | none => none
  | some ds =>
    let pfx : Char :=
      match token with
      | [] => 'H'
      | c :: _ => if hgLetter c then c.toUpper else 'H'
    some (pfx :: Nat.toDigits 10 (digitsToNat ds))

/-- `extractStrongs` of `import.ts` (the unused `wordText` parameter is
omitted).  A null or empty lemma is falsy and returns the empty list. -/
def extractStrongs : Option (List Char) → List (List Char)
  | none => []
  | some s =>
    if s.isEmpty then []
    else (scanStrongs s.length s).filterMap processToken

example : extractStrongs (some ("1".toList)) = [("H1".toList)] := by decide
example : extractStrongs (some ("1471 a".toList)) = [("H1471".toList)] := by decide
example : extractStrongs (some ("b/990".toList)) = [("H990".toList)] := by decide
example : extractStrongs (some ("l".toList)) = [] := by decide
example : extractStrongs (some ("c/l".toList)) = [] := by decide
example : extractStrongs (some ("strongs:H7225".toList)) = [("H7225".toList)] := by decide
example : extractStrongs (some ("g26".toList)) = [("G26".toList)] := by decide
example : extractStrongs (some ("00430".toList)) = [("H430".toList)] := by decide

/-! ## The parsed OSIS tree and the word records -/

/-- A parsed markup node as produced by `fast-xml-parser` with
`preserveOrder:false`: a text leaf, an array of nodes, or a keyed map
(attribute keys carry the `@_` prefix, inline text sits under `#text`)
kept in key-insertion order. -/
inductive Node where
  | str : List Char → Node
  | arr : List Node → Node
  | obj : List (List Char × Node) → Node

/-- Property access on a keyed map (first binding wins, as JavaScript
objects cannot repeat keys). -/
def lookupNode : List (List Char × Node) → List Char → Option Node
  | [], _ => none
  | (k, v) :: t, key => if k = key then some v else lookupNode t key

mutual
/-- JavaScript string coercion of a node: a string is itself, an array
is its elements joined by commas, a plain object is "[object Object]". -/
def jsString : Node → List Char
  | .str t => t
  | .arr l => jsStringList l
  | .obj _ => "[object Object]".toList

def jsStringList : List Node → List Char
  | [] => []
  | [n] => jsString n
  | n :: rest => jsString n ++ ',' :: jsStringList rest
end

/-- JavaScript truthiness of a node: only the empty string is falsy. -/
def nodeTruthy : Node → Bool
  | .str t => !t.isEmpty
  | _ => true

def optNodeTruthy : Option Node → Bool
  | none => false
  | some n => nodeTruthy n

/-- Attribute read such as `elem` at `@_lemma`, coerced to a string. -/
def getAttr (kvs : List (List Char × Node)) (key : List Char) : Option (List Char) :=
  match lookupNode kvs key with
  | none => none
  | some (.str t) => some t
  | some other => some (jsString other)

/-- The JavaScript idiom `x || null` on an optional string: an empty
string is falsy and becomes null. -/
def optTruthy : Option (List Char) → Option (List Char)
  | some [] => none
  | some (c :: cs) => some (c :: cs)
  | none => none

inductive Variant where
  | ketiv
  | qere
deriving DecidableEq

/-- The metadata record; the only key the pipeline ever writes is
`isPrefixOnly`, so an absent key is modelled as `false`. -/
structure MetaFlags where
  isPrefixOnly : Bool
deriving DecidableEq

structure SourceInfo where
  lemma' : Option (List Char)
  morph : Option (List Char)
  type : Option (List Char)
deriving DecidableEq

/-- The `WordEntry` interface of `import.ts`; `none` stands for a null
value or an absent key (`strongs`, `variant`, `metadata` and `source`
are dropped keys when absent, `lemma`/`morph` are null). -/
structure WordEntry where
  position : Nat
  text : List Char
  lemma' : Option (List Char)
  morph : Option (List Char)
  strongs : Option (List (List Char))
  variant : Option Variant
  metadata : Option MetaFlags
  source : Option SourceInfo
deriving DecidableEq

/-- The per-verse mutable state of the walk: the accumulated words, the
`pos` counter, and the `isInsideQere` flag. -/
structure WalkState where
  words : List WordEntry
  pos : Nat
  insideQere : Bool
deriving DecidableEq

def keyText : List Char := "#text".toList
def keyType : List Char := "@_type".toList
def keyLemma : List Char := "@_lemma".toList
def keyMorph : List Char := "@_morph".toList
def keyCatchWord : List Char := "catchWord".toList
def keyRdg : List Char := "rdg".toList
def keyNote : List Char := "note".toList
def valKetiv : List Char := "x-ketiv".toList
def valQere : List Char := "x-qere".toList

/-- Keys starting with the attribute marker `@_`. -/
def isAttrKey : List Char → Bool
  | '@' :: '_' :: _ => true
  | _ => false

/-- Starts with the reserved segment-type marker `x-`. -/
def startsXDash : List Char → Bool
  | 'x' :: '-' :: _ => true
  | _ => false

/-- The skip test on a text-bearing element: a truthy `type` beginning
with `x-` that is neither of the two whitelisted values aborts the
element without descending into children. -/
def skipElemType (ty : Option (List Char)) : Bool :=
  match ty with
  | none => false
  | some t => !t.isEmpty && startsXDash t && t ≠ valKetiv && t ≠ valQere

/-- The variant tag of an emitted word: `ketiv` on an `x-ketiv`
element, else `qere` when inside a qere reading, else absent. -/
def mkVariant (ty : Option (List Char)) (insideQere : Bool) : Option Variant :=
  if ty = some valKetiv then some Variant.ketiv
  else if insideQere then some Variant.qere
  else none

/-- The `source` object: each of the three keys is recorded when the
raw attribute is truthy, and the object is dropped when empty. -/
def mkSource (la ma ty : Option (List Char)) : Option SourceInfo :=
  let l := optTruthy la
  let m := optTruthy ma
  let t := optTruthy ty
  if l.isNone && m.isNone && t.isNone then none else some ⟨l, m, t⟩

/-- A word pushed from a bare text leaf: null lemma and morph, empty
metadata and source objects. -/
def leafWord (p : Nat) (t : List Char) : WordEntry :=
  { position := p, text := t, lemma' := none, morph := none,
    strongs := none, variant := none, metadata := some ⟨false⟩,
    source := some ⟨none, none, none⟩ }

/-- The text-leaf case of the walk: strip slashes, trim, split on
whitespace and push every token that is not a bare maqqef. -/
def emitLeafText (t : List Char) (s : WalkState) : WalkState :=
  let clean := trimWs (removeSlashes t)
  if clean.isEmpty then s
  else
    (splitWsTokens clean).foldl
      (fun st word =>
        if word = [MAQQEF] then st
        else { st with words := st.words ++ [leafWord st.pos word], pos := st.pos + 1 })
      s

/-- A word pushed from a text-bearing element. -/
def elemWord (p : Nat) (t : List Char) (la ma ty : Option (List Char))
    (strongs : List (List Char)) (q : Bool) : WordEntry :=
  { position := p, text := t, lemma' := optTruthy la, morph := optTruthy ma,
    strongs := if strongs.isEmpty then none else some strongs,
    variant := mkVariant ty q, metadata := none, source := mkSource la ma ty }

/-- The token loop over a text-bearing element's inline text. -/
def emitElemText (ty la ma : Option (List Char)) (strongs : List (List Char))
    (toks : List (List Char)) (s : WalkState) : WalkState :=
  toks.foldl
    (fun st piece =>
      if piece = [MAQQEF] then st
      else { st with
               words := st.words ++ [elemWord st.pos piece la ma ty strongs st.insideQere],
               pos := st.pos + 1 })
    s

/-! ## The recursive walk

The dispatch helpers take the recursive walker as an explicit function
argument; `extractWordsF` ties the knot, structurally on the budget. -/

/-- One element of the `rdgArray` loop: only an object whose `type` is
`x-qere` is walked, with the inside-qere flag saved, set, and restored
to exactly the saved value. -/
def processRdgOne (walk : Node → WalkState → WalkState) (v : Node) (s : WalkState) : WalkState :=
  match v with
  | .obj kvs =>
    if getAttr kvs keyType = some valQere then
      let prev := s.insideQere
      let s' := walk v { s with insideQere := true }
      { s' with insideQere := prev }
    else s
  | _ => s

/-- The `rdg` handler: a singleton value is wrapped into a one-element
array before the loop. -/
def processRdg (walk : Node → WalkState → WalkState) (v : Node) (s : WalkState) : WalkState :=
  match v with
  | .arr l => l.foldl (fun st r => processRdgOne walk r st) s
  | _ => processRdgOne walk v s

/-- One element of the `noteArray` loop: only the note's `rdg` child is
processed (when truthy); everything else in the note body is ignored. -/
def processNoteOne (walk : Node → WalkState → WalkState) (v : Node) (s : WalkState) : WalkState :=
  match v with
  | .obj kvs =>
    match lookupNode kvs keyRdg with
    | some rv => if nodeTruthy rv then processRdg walk rv s else s
    | none => s
  | _ => s

/-- The `note` handler, with singleton wrapping. -/
def processNote (walk : Node → WalkState → WalkState) (v : Node) (s : WalkState) : WalkState :=
  match v with
  | .arr l => l.foldl (fun st nt => processNoteOne walk nt st) s
  | _ => processNoteOne walk v s

/-- One step of the child-key loop of `extractWords`: `catchWord` is
skipped, `rdg` and `note` are intercepted, attribute keys and the
inline-text key are skipped, and everything else is walked. -/
def childStep (walk : Node → WalkState → WalkState) (k : List Char) (v : Node)
    (s : WalkState) : WalkState :=
  if k = keyCatchWord then s
  else if k = keyRdg then processRdg walk v s
  else if k = keyNote then processNote walk v s
  else if isAttrKey k || k = keyText then s
  else walk v s

/-- The child-key loop of `extractWords` over the element's entries in
insertion order. -/
def walkKVs (walk : Node → WalkState → WalkState) (kvs : List (List Char × Node))
    (s : WalkState) : WalkState :=
  kvs.foldl (fun st kv => childStep walk kv.1 kv.2 st) s

/-- `extractWords` of `import.ts`, with an explicit recursion budget.
A text-bearing element with a non-whitelisted `x-` type is aborted
whole; otherwise its inline tokens are emitted and then its child keys
are dispatched. -/
def extractWordsF : Nat → Node → WalkState → WalkState
  | 0, _, s => s
  | fuel + 1, n, s =>
    match n with
    | .str t => emitLeafText t s
    | .arr l => l.foldl (fun st item => extractWordsF fuel item st) s
    | .obj kvs =>
      let textv := lookupNode kvs keyText
      if optNodeTruthy textv then
        let ty := getAttr kvs keyType
        if skipElemType ty then s
        else
          let raw : List Char :=
            match textv with
            | some (.str t) => t
            | some other => jsString other
            | none => []
          let text := trimWs (removeSlashes raw)
          let la := getAttr kvs keyLemma
          let ma := getAttr kvs keyMorph
          let s1 :=
            if text.isEmpty then s
            else emitElemText ty la ma (extractStrongs (optTruthy la)) (splitWsTokens text) s
          walkKVs (fun n' s' => extractWordsF fuel n' s') kvs s1
      else walkKVs (fun n' s' => extractWordsF fuel n' s') kvs s

/-- The per-verse loop of `parseOsis` over the verse record's own
entries: only attribute keys are filtered; every other child value is
handed to the walker without interception. -/
def verseTopLoopF (fuel : Nat) (kvs : List (List Char × Node)) (s : WalkState) : WalkState :=
  kvs.foldl (fun st kv => if isAttrKey kv.1 then st else extractWordsF fuel kv.2 st) s

/-- The fresh per-verse state: empty words, position 1, flag false. -/
def initState : WalkState := { words := [], pos := 1, insideQere := false }

/-- The raw word sequence of one verse record. -/
def verseWordsF (fuel : Nat) (kvs : List (List Char × Node)) : List WordEntry :=
  (verseTopLoopF fuel kvs initState).words

/-- `Array.prototype.join` with a single space. -/
def joinSpace : List (List Char) → List Char
  | [] => []
  | [t] => t
  | t :: ts => t ++ ' ' :: joinSpace ts

structure VerseRec where
  text : List Char
  words : List WordEntry
deriving DecidableEq

/-- The tail of the per-verse branch of `parseOsis`: a record is pushed
only when the walk produced at least one word. -/
def parseVerseRecF (fuel : Nat) (kvs : List (List Char × Node)) : Option VerseRec :=
  let ws := verseWordsF fuel kvs
  if ws.length > 0 then
    some { text := joinSpace (ws.map (fun w => w.text)), words := ws }
  else none

/-! ## The post-filter of `saveVerse` -/

/-- JavaScript truthiness of a nullable string. -/
def jsTruthyStr : Option (List Char) → Bool
  | none => false
  | some s => !s.isEmpty

/-- The test of `/[֐-׿]/` on the word text. -/
def hasHebrew (t : List Char) : Bool :=
  t.any (fun c => 0x590 ≤ c.toNat && c.toNat ≤ 0x5FF)

/-- `isTextualCriticalNote`: no lemma, no morphology, and no Hebrew
character in the text. -/
def isTextualCriticalNote (w : WordEntry) : Bool :=
  if jsTruthyStr w.lemma' || jsTruthyStr w.morph then false
  else !hasHebrew w.text

def peChar : Char := Char.ofNat 0x05E4

def samekhChar : Char := Char.ofNat 0x05E1

/-- `isParagraphMarker`: no lemma, no morphology, and a text equal to
the single letter peh or samekh. -/
def isParagraphMarker (w : WordEntry) : Bool :=
  !jsTruthyStr w.lemma' && !jsTruthyStr w.morph &&
    (w.text = [peChar] || w.text = [samekhChar])

/-- The rebuilt metadata of a surviving word: a copy of the raw
metadata with `isPrefixOnly` set when the lemma is truthy and
digit-free. -/
def outMeta (w : WordEntry) : MetaFlags :=
  let base := w.metadata.getD ⟨false⟩
  if jsTruthyStr w.lemma' && !(w.lemma'.getD []).any isDigitC then
    { base with isPrefixOnly := true }
  else base

/-- A surviving word re-pushed with a fresh position. -/
def filteredWord (p : Nat) (w : WordEntry) : WordEntry :=
  { position := p, text := w.text, lemma' := w.lemma', morph := w.morph,
    strongs := w.strongs, variant := w.variant, metadata := some (outMeta w),
    source := w.source }

/-- The filter loop of `saveVerse`: drop textual-critical notes and
paragraph markers, renumber the survivors from 1. -/
def postFilterGo : List WordEntry → Nat → List WordEntry
  | [], _ => []
  | w :: ws, p =>
    if isTextualCriticalNote w || isParagraphMarker w then postFilterGo ws p
    else filteredWord p w :: postFilterGo ws (p + 1)

def postFilter (ws : List WordEntry) : List WordEntry :=
  postFilterGo ws 1

structure VerseData where
  text : List Char
  words : List WordEntry
deriving DecidableEq

/-- The `VerseData` record written by `saveVerse`: the filtered words
and the text rebuilt from them. -/
def saveVerseData (ws : List WordEntry) : VerseData :=
  let fw := postFilter ws
  { text := joinSpace (fw.map (fun w => w.text)), words := fw }

/-! ## Concrete verse trees

These model the output of `fast-xml-parser` (with
`preserveOrder:false`, `trimValues:false`) on the embedded test XML:
sibling `w` elements merge into one array under the `w` key, notes
under the `note` key, inter-element whitespace concatenates under
`#text`, attributes carry the `@_` prefix. -/

/-- A plain `w` element from its lemma, morph, and inline text. -/
def wN : String × String × String → Node
  | (l, m, t) =>
    .obj [(keyLemma, .str l.toList), (keyMorph, .str m.toList), (keyText, .str t.toList)]

/-- The ketiv `w` element of Gen 8:17. -/
def wKetiv817 : Node :=
  .obj [(keyType, .str valKetiv), (keyLemma, .str ("3318".toList)),
        (keyMorph, .str ("HVhv2ms".toList)), (keyText, .str ("הוצא".toList))]

/-- The variant note of Gen 8:17: a catch word echoing the ketiv and an
`x-qere` reading holding the qere `w` element with the same lemma. -/
def gen817note : Node :=
  .obj [(keyType, .str ("variant".toList)),
        (keyText, .str ("\n    \n    \n  ".toList)),
        (keyCatchWord, .str ("הוצא".toList)),
        (keyRdg, .obj [(keyType, .str valQere),
                       (keyText, .str ("\n      \n    ".toList)),
                       ("w".toList, wN ("3318", "HVhv2ms", "הַיְצֵא"))])]

/-- The `w` elements of Gen 8:17 in document order (the ketiv is the
fourteenth). -/
def gen817ws : List Node :=
  [wN ("3605", "HNcmsc", "כָּל"),
   wN ("d/2416 c", "HTd/Ncfsa", "הַחַיָּה"),
   wN ("834 a", "HTr", "אֲשֶׁר"),
   wN ("854", "HR/Sp2ms", "אִתְּךָ"),
   wN ("m/3605", "HR/Ncmsc", "מִכָּל"),
   wN ("1320", "HNcmsa", "בָּשָׂר"),
   wN ("b/5775", "HRd/Ncmsa", "בָּעוֹף"),
   wN ("c/b/929", "HC/Rd/Ncfsa", "וּבַבְּהֵמָה"),
   wN ("c/b/3605", "HC/R/Ncmsc", "וּבְכָל"),
   wN ("d/7431", "HTd/Ncmsa", "הָרֶמֶשׂ"),
   wN ("d/7430", "HTd/Vqrmsa", "הָרֹמֵשׂ"),
   wN ("5921 a", "HR", "עַל"),
   wN ("d/776", "HTd/Ncbsa", "הָאָרֶץ"),
   wKetiv817,
   wN ("854", "HR/Sp2fs", "אִתָּךְ"),
   wN ("c/8317", "HC/Vqq3cp", "וְשָׁרְצוּ"),
   wN ("b/776", "HRd/Ncbsa", "בָאָרֶץ"),
   wN ("c/6509", "HC/Vqq3cp", "וּפָרוּ"),
   wN ("c/7235 a", "HC/Vqq3cp", "וְרָבוּ"),
   wN ("5921 a", "HR", "עַל"),
   wN ("d/776", "HTd/Ncbsa", "הָאָרֶץ")]

/-- The parsed verse record of `GEN_8_17_XML`. -/
def gen817 : List (List Char × Node) :=
  [("@_osisID".toList, .str ("Gen.8.17".toList)),
   (keyText, .str ("\n  \n  \n".toList)),
   ("w".toList, .arr gen817ws),
   (keyNote, gen817note)]

/-- An accent-only alternative note (compact markup: no inter-element
text, the reading holds its text inline). -/
def accentNote : String × String → Node
  | (cw, txt) =>
    .obj [(keyType, .str ("alternative".toList)),
          (keyCatchWord, .str cw.toList),
          (keyRdg, .obj [(keyType, .str ("x-accent".toList)), (keyText, .str txt.toList)])]

/-- The `w` elements of Exod 20:2. -/
def exod202ws : List Node :=
  [wN ("595", "HPp1cs", "אָנֹכִי"),
   wN ("3068", "HNp", "יְהוָה"),
   wN ("430", "HNcmpc/Sp2ms", "אֱלֹהֶיךָ"),
   wN ("834 a", "HTr", "אֲשֶׁר"),
   wN ("3318", "HVhp1cs/Sp2ms", "הוֹצֵאתִיךָ"),
   wN ("m/776", "HR/Ncbsc", "מֵאֶרֶץ"),
   wN ("4714", "HNp", "מִצְרַיִם"),
   wN ("m/1004 b", "HR/Ncmsc", "מִבֵּית"),
   wN ("5650", "HNcmpa", "עֲבָדִים")]

/-- The parsed verse record of `EXOD_20_2_XML`: nine words and four
accent-only alternative notes. -/
def exod202 : List (List Char × Node) :=
  [("@_osisID".toList, .str ("Exod.20.2".toList)),
   (keyText, .str ("\n  \n  \n".toList)),
   ("w".toList, .arr exod202ws),
   (keyNote, .arr
     [accentNote ("אָנֹכִי", "אָנֹכִי"),
      accentNote ("אֱלֹהֶיךָ", "אֱלֹהֶיךָ"),
      accentNote ("מִבֵּית", "מִבֵּית"),
      accentNote ("עֲבָדִים", "עֲבָדִים")])]

/-- A verse whose root carries a qere note before a plain word: used to
observe that the flag restore keeps later words untagged. -/
def exFlagRestore : List (List Char × Node) :=
  [("@_osisID".toList, .str ("Gen.1.1".toList)),
   (keyNote, .obj [(keyType, .str ("variant".toList)),
                   (keyCatchWord, .str ("קרא".toList)),
                   (keyRdg, .obj [(keyType, .str valQere),
                                  ("w".toList, wN ("7121", "HVqp3ms", "קָרָא"))])]),
   ("w".toList, wN ("1004 b", "HNcmsc", "בַּיִת"))]

/-- A verse whose root holds a `catchWord` child and a note carrying
inline prose: the per-verse loop of `parseOsis` walks both without
interception. -/
def exRootNote : List (List Char × Node) :=
  [("@_osisID".toList, .str ("Gen.1.1".toList)),
   ("catchWord".toList, .str ("abc".toList)),
   (keyNote, .obj [(keyType, .str ("variant".toList)),
                   (keyText, .str ("hello".toList))])]

/-- A verse containing only a punctuation segment: its traversal yields
zero words. -/
def exSegOnly : List (List Char × Node) :=
  [("@_osisID".toList, .str ("Gen.1.9".toList)),
   ("seg".toList, .obj [(keyType, .str ("x-sof-pasuq".toList)),
                        (keyText, .str ("׃".toList))])]

/-- A verse with a prefix-only lemma word (Gen 25:23 shape). -/
def exPrefixOnly : List (List Char × Node) :=
  [("@_osisID".toList, .str ("Gen.25.23".toList)),
   ("w".toList, .arr [wN ("1121", "HNcmpc", "בְּנֵי"), wN ("l", "HR/Sp3fs", "לָהּ")])]

/-- A one-word verse used by the maqqef witness. -/
def exOneWord : List (List Char × Node) :=
  [("@_osisID".toList, .str ("Gen.1.3".toList)),
   ("w".toList, wN ("216", "HNcbsa", "אוֹר"))]

/-- An accent-typed reading node, used to witness that non-qere
readings are not walked. -/
def accentRdgNode : Node :=
  .obj [(keyType, .str ("x-accent".toList)), (keyText, .str ("אָנֹכִי".toList))]

/-! ## Lemmas about the Strong's extractor -/

theorem dropLit_sub : ∀ (p cs r : List Char), dropLit p cs = some r → ∀ c ∈ r, c ∈ cs
  | [], cs, r, h => by
    simp only [dropLit, Option.some.injEq] at h
    intro c hc; rw [h]; exact hc
  | _ :: _, [], r, h => by simp [dropLit] at h
  | p :: ps, c :: cs, r, h => by
    unfold dropLit at h
    split at h
    · intro x hx
      exact List.mem_cons_of_mem _ (dropLit_sub ps cs r h x hx)
    · exact absurd h (by simp)

theorem matchGroup_none (cs : List Char) (h : ∀ c ∈ cs, isDigitC c = false) :
    matchGroup cs = none := by
  match cs with
  | [] => rfl
  | c :: cs' =>
    have hc : isDigitC c = false := h c (List.mem_cons_self ..)
    match cs' with
    | [] => simp [matchGroup, hc]
    | d :: rest =>
      have hd : isDigitC d = false := h d (by simp)
      simp [matchGroup, hc, hd]

theorem matchAt_none (cs : List Char) (h : ∀ c ∈ cs, isDigitC c = false) :
    matchAt cs = none := by
  have key : ∀ p, (dropLit p cs).bind matchGroup = none := by
    intro p
    cases hp : dropLit p cs with
    | none => rfl
    | some r =>
      show matchGroup r = none
      exact matchGroup_none r (fun c hc => h c (dropLit_sub p cs r hp c hc))
  unfold matchAt
  rw [key markerS, key markerNoS, matchGroup_none cs h]

theorem scanStrongs_nil : ∀ (fuel : Nat) (cs : List Char),
    (∀ c ∈ cs, isDigitC c = false) → scanStrongs fuel cs = []
  | 0, _, _ => rfl
  | _ + 1, [], _ => rfl
  | fuel + 1, c :: tail, h => by
    unfold scanStrongs
    rw [matchAt_none _ h]
    exact scanStrongs_nil fuel tail (fun x hx => h x (List.mem_cons_of_mem _ hx))

/-- A digit-free lemma yields no Strong's number at all. -/
theorem extractStrongs_nodigit (l : List Char) (h : l.any isDigitC = false) :
    extractStrongs (some l) = [] := by
  have h' : ∀ c ∈ l, isDigitC c = false := by
    intro c hc
    by_contra hcc
    rw [List.any_eq_false] at h
    exact h c hc (by revert hcc; cases isDigitC c <;> simp)
  show (if l.isEmpty = true then [] else List.filterMap processToken (scanStrongs l.length l)) = []
  rw [scanStrongs_nil l.length l h']
  simp

theorem takeDigitsUpTo_spec : ∀ (n : Nat) (cs : List Char),
    (takeDigitsUpTo n cs).1.length ≤ n ∧ ∀ c ∈ (takeDigitsUpTo n cs).1, isDigitC c = true
  | 0, cs => by simp [takeDigitsUpTo]
  | n + 1, [] => by simp [takeDigitsUpTo]
  | n + 1, c :: cs => by
    by_cases hc : isDigitC c
    · have ih := takeDigitsUpTo_spec n cs
      simp only [takeDigitsUpTo, hc, if_true, List.length_cons]
      refine ⟨Nat.succ_le_succ ih.1, ?_⟩
      intro x hx
      rcases List.mem_cons.mp hx with rfl | hx
      · exact hc
      · exact ih.2 x hx
    · simp [takeDigitsUpTo, hc]

theorem firstDigitRun_spec : ∀ (tok ds : List Char), firstDigitRun tok = some ds →
    ds.length ≤ 5 ∧ ∀ c ∈ ds, isDigitC c = true
  | [], ds, h => by simp [firstDigitRun] at h
  | c :: cs, ds, h => by
    by_cases hc : isDigitC c
    · simp only [firstDigitRun, hc, if_true, Option.some.injEq] at h
      rw [← h]
      exact takeDigitsUpTo_spec 5 (c :: cs)
    · simp only [firstDigitRun, hc, Bool.false_eq_true, if_false] at h
      exact firstDigitRun_spec cs ds h

theorem digitsFold_le : ∀ (ds : List Char) (a : Nat), (∀ c ∈ ds, isDigitC c = true) →
    ds.foldl (fun x c => x * 10 + (c.toNat - 48)) a + 1 ≤ (a + 1) * 10 ^ ds.length
  | [], a, _ => by simp
  | c :: cs, a, h => by
    have hd : c.toNat - 48 ≤ 9 := by
      have hc := h c (List.mem_cons_self ..)
      unfold isDigitC at hc
      simp only [Bool.and_eq_true, decide_eq_true_eq] at hc
      omega
    have ih := digitsFold_le cs (a * 10 + (c.toNat - 48))
      (fun x hx => h x (List.mem_cons_of_mem _ hx))
    simp only [List.foldl_cons, List.length_cons]
    calc cs.foldl (fun x c => x * 10 + (c.toNat - 48)) (a * 10 + (c.toNat - 48)) + 1
        ≤ (a * 10 + (c.toNat - 48) + 1) * 10 ^ cs.length := ih
      _ ≤ ((a + 1) * 10) * 10 ^ cs.length := by
          have : a * 10 + (c.toNat - 48) + 1 ≤ (a + 1) * 10 := by omega
          exact Nat.mul_le_mul_right _ this
      _ = (a + 1) * 10 ^ (cs.length + 1) := by ring

theorem digitsToNat_lt (ds : List Char) (hlen : ds.length ≤ 5)
    (hdig : ∀ c ∈ ds, isDigitC c = true) : digitsToNat ds < 100000 := by
  have h1 := digitsFold_le ds 0 hdig
  have h2 : (10 : Nat) ^ ds.length ≤ 10 ^ 5 :=
    Nat.pow_le_pow_right (by norm_num) hlen
  have : digitsToNat ds + 1 ≤ 10 ^ ds.length := by simpa [digitsToNat] using h1
  omega

theorem hgLetter_toUpper (c : Char) (h : hgLetter c = true) :
    c.toUpper = 'H' ∨ c.toUpper = 'G' := by
  unfold hgLetter at h
  simp only [Bool.or_eq_true, decide_eq_true_eq] at h
  rcases h with ((rfl | rfl) | rfl) | rfl
  · left; decide
  · right; decide
  · left; decide
  · right; decide

/-- Every emitted Strong's token is an H or G prefix followed by the
decimal rendering of a number below 100000. -/
theorem processToken_shape (tok t : List Char) (h : processToken tok = some t) :
    ∃ c n, (c = 'H' ∨ c = 'G') ∧ n < 100000 ∧ t = c :: Nat.toDigits 10 n := by
  unfold processToken at h
  cases hfd : firstDigitRun tok with
  | none => rw [hfd] at h; exact absurd h (by simp)
  | some ds =>
    rw [hfd] at h
    simp only [Option.some.injEq] at h
    obtain ⟨hlen, hdig⟩ := firstDigitRun_spec tok ds hfd
    have hn : digitsToNat ds < 100000 := digitsToNat_lt ds hlen hdig
    subst h
    cases tok with
    | nil => exact ⟨'H', digitsToNat ds, Or.inl rfl, hn, rfl⟩
    | cons c0 rest =>
      by_cases hg : hgLetter c0
      · rcases hgLetter_toUpper c0 hg with h' | h'
        · exact ⟨'H', digitsToNat ds, Or.inl rfl, hn, by simp [hg, h']⟩
        · exact ⟨'G', digitsToNat ds, Or.inr rfl, hn, by simp [hg, h']⟩
      · exact ⟨'H', digitsToNat ds, Or.inl rfl, hn, by simp [hg]⟩

/-! ## The walk invariant

`WordOk` collects the field invariants every emitted word satisfies;
`StepOk` says a state transition preserves the flag, only appends
words, and appends only invariant-satisfying words. -/

def WordOk (w : WordEntry) : Prop :=
  w.text ≠ [MAQQEF] ∧ w.lemma' ≠ some [] ∧
  (w.lemma' = none → w.strongs = none) ∧
  (∀ l, w.lemma' = some l → l.any isDigitC = false → w.strongs = none)

def StepOk (s s' : WalkState) : Prop :=
  s'.insideQere = s.insideQere ∧
  ∃ new, s'.words = s.words ++ new ∧ ∀ w ∈ new, WordOk w

theorem stepOk_rfl (s : WalkState) : StepOk s s :=
  ⟨rfl, [], (List.append_nil _).symm, by simp⟩

theorem stepOk_trans {a b c : WalkState} (h1 : StepOk a b) (h2 : StepOk b c) :
    StepOk a c := by
  obtain ⟨hq1, n1, hw1, ho1⟩ := h1
  obtain ⟨hq2, n2, hw2, ho2⟩ := h2
  refine ⟨hq2.trans hq1, n1 ++ n2, ?_, ?_⟩
  · rw [hw2, hw1, List.append_assoc]
  · intro w hw
    rcases List.mem_append.mp hw with h | h
    exacts [ho1 w h, ho2 w h]

theorem foldl_stepOk {α : Type _} (f : WalkState → α → WalkState)
    (h : ∀ st a, StepOk st (f st a)) :
    ∀ (l : List α) (s : WalkState), StepOk s (l.foldl f s)
  | [], s => stepOk_rfl s
  | a :: l, s => stepOk_trans (h s a) (foldl_stepOk f h l (f s a))

theorem push_stepOk {s : WalkState} {w : WordEntry} (hw : WordOk w) :
    StepOk s { s with words := s.words ++ [w], pos := s.pos + 1 } :=
  ⟨rfl, [w], rfl, by simpa using hw⟩

theorem optTruthy_ne_nil (o : Option (List Char)) : optTruthy o ≠ some [] := by
  cases o with
  | none => simp [optTruthy]
  | some s => cases s <;> simp [optTruthy]

theorem leafWord_ok (p : Nat) (t : List Char) (ht : t ≠ [MAQQEF]) :
    WordOk (leafWord p t) :=
  ⟨ht, by simp [leafWord], fun _ => rfl, fun l hl => by simp [leafWord] at hl⟩

theorem emitLeafText_stepOk (t : List Char) (s : WalkState) :
    StepOk s (emitLeafText t s) := by
  by_cases h : (trimWs (removeSlashes t)).isEmpty
  · simp only [emitLeafText, h, if_true]
    exact stepOk_rfl s
  · simp only [emitLeafText, h, Bool.false_eq_true, if_false]
    refine foldl_stepOk _ (fun st a => ?_) _ s
    by_cases ha : a = [MAQQEF]
    · simp only [ha, if_true]
      exact stepOk_rfl st
    · simp only [ha, if_false]
      exact push_stepOk (leafWord_ok st.pos a ha)

theorem elemWord_ok (p : Nat) (t : List Char) (la ma ty : Option (List Char))
    (q : Bool) (ht : t ≠ [MAQQEF]) :
    WordOk (elemWord p t la ma ty (extractStrongs (optTruthy la)) q) := by
  refine ⟨ht, optTruthy_ne_nil la, ?_, ?_⟩
  · intro hla
    show (if (extractStrongs (optTruthy la)).isEmpty then none
          else some (extractStrongs (optTruthy la))) = none
    have hla' : optTruthy la = none := hla
    rw [hla']
    rfl
  · intro l hl hd
    show (if (extractStrongs (optTruthy la)).isEmpty then none
          else some (extractStrongs (optTruthy la))) = none
    have hl' : optTruthy la = some l := hl
    rw [hl', extractStrongs_nodigit l hd]
    rfl

theorem emitElemText_stepOk (ty la ma : Option (List Char))
    (toks : List (List Char)) (s : WalkState) :
    StepOk s (emitElemText ty la ma (extractStrongs (optTruthy la)) toks s) := by
  refine foldl_stepOk _ (fun st a => ?_) toks s
  by_cases ha : a = [MAQQEF]
  · simp only [ha, if_true]
    exact stepOk_rfl st
  · simp only [ha, if_false]
    exact push_stepOk (elemWord_ok st.pos a la ma ty st.insideQere ha)

theorem processRdgOne_stepOk {walk : Node → WalkState → WalkState}
    (hwalk : ∀ n s, StepOk s (walk n s)) (v : Node) (s : WalkState) :
    StepOk s (processRdgOne walk v s) := by
  cases v with
  | str t => exact stepOk_rfl s
  | arr l => exact stepOk_rfl s
  | obj kvs =>
    show StepOk s (if getAttr kvs keyType = some valQere then
        { walk (Node.obj kvs) { s with insideQere := true } with insideQere := s.insideQere }
      else s)
    by_cases hq : getAttr kvs keyType = some valQere
    · rw [if_pos hq]
      obtain ⟨-, new, hw, ho⟩ := hwalk (.obj kvs) { s with insideQere := true }
      exact ⟨rfl, new, hw, ho⟩
    · rw [if_neg hq]
      exact stepOk_rfl s

theorem processRdg_stepOk {walk : Node → WalkState → WalkState}
    (hwalk : ∀ n s, StepOk s (walk n s)) (v : Node) (s : WalkState) :
    StepOk s (processRdg walk v s) := by
  cases v with
  | str t => exact processRdgOne_stepOk hwalk _ s
  | arr l => exact foldl_stepOk _ (fun st a => processRdgOne_stepOk hwalk a st) l s
  | obj kvs => exact processRdgOne_stepOk hwalk _ s

theorem processNoteOne_stepOk {walk : Node → WalkState → WalkState}
    (hwalk : ∀ n s, StepOk s (walk n s)) (v : Node) (s : WalkState) :
    StepOk s (processNoteOne walk v s) := by
  cases v with
  | str t => exact stepOk_rfl s
  | arr l => exact stepOk_rfl s
  | obj kvs =>
    show StepOk s (match lookupNode kvs keyRdg with
      | some rv => if nodeTruthy rv then processRdg walk rv s else s
      | none => s)
    cases hk : lookupNode kvs keyRdg with
    | none => exact stepOk_rfl s
    | some rv =>
      show StepOk s (if nodeTruthy rv then processRdg walk rv s else s)
      by_cases ht : nodeTruthy rv = true
      · rw [if_pos ht]
        exact processRdg_stepOk hwalk rv s
      · rw [if_neg ht]
        exact stepOk_rfl s

theorem processNote_stepOk {walk : Node → WalkState → WalkState}
    (hwalk : ∀ n s, StepOk s (walk n s)) (v : Node) (s : WalkState) :
    StepOk s (processNote walk v s) := by
  cases v with
  | str t => exact processNoteOne_stepOk hwalk _ s
  | arr l => exact foldl_stepOk _ (fun st a => processNoteOne_stepOk hwalk a st) l s
  | obj kvs => exact processNoteOne_stepOk hwalk _ s

theorem childStep_stepOk {walk : Node → WalkState → WalkState}
    (hwalk : ∀ n s, StepOk s (walk n s)) (k : List Char) (v : Node) (s : WalkState) :
    StepOk s (childStep walk k v s) := by
  unfold childStep
  split
  · exact stepOk_rfl s
  · split
    · exact processRdg_stepOk hwalk v s
    · split
      · exact processNote_stepOk hwalk v s
      · split
        · exact stepOk_rfl s
        · exact hwalk v s

theorem walkKVs_stepOk {walk : Node → WalkState → WalkState}
    (hwalk : ∀ n s, StepOk s (walk n s)) (kvs : List (List Char × Node)) (s : WalkState) :
    StepOk s (walkKVs walk kvs s) := by
  unfold walkKVs
  exact foldl_stepOk _ (fun st kv => childStep_stepOk hwalk kv.1 kv.2 st) kvs s

/-- The core invariant: every run of the walker preserves the flag,
only appends words, and every appended word satisfies `WordOk`. -/
theorem extractWordsF_stepOk : ∀ (fuel : Nat) (n : Node) (s : WalkState),
    StepOk s (extractWordsF fuel n s)
  | 0, _, s => stepOk_rfl s
  | fuel + 1, n, s => by
    have IH : ∀ (n' : Node) (s' : WalkState), StepOk s' (extractWordsF fuel n' s') :=
      extractWordsF_stepOk fuel
    cases n with
    | str t => exact emitLeafText_stepOk t s
    | arr l => exact foldl_stepOk _ (fun st a => IH a st) l s
    | obj kvs =>
      show StepOk s (extractWordsF (fuel + 1) (.obj kvs) s)
      unfold extractWordsF
      dsimp only
      split
      · split
        · exact stepOk_rfl s
        · refine stepOk_trans ?_ (walkKVs_stepOk IH kvs _)
          split
          · exact stepOk_rfl s
          · exact emitElemText_stepOk _ _ _ _ s
      · exact walkKVs_stepOk IH kvs s

theorem verseTopLoopF_stepOk (fuel : Nat) (kvs : List (List Char × Node)) (s : WalkState) :
    StepOk s (verseTopLoopF fuel kvs s) := by
  refine foldl_stepOk _ (fun st kv => ?_) kvs s
  by_cases h : isAttrKey kv.1
  · simp only [h, if_true]
    exact stepOk_rfl st
  · simp only [h, Bool.false_eq_true, if_false]
    exact extractWordsF_stepOk fuel kv.2 st

/-- Every raw word of a verse satisfies the invariant. -/
theorem verseWordsF_ok (fuel : Nat) (kvs : List (List Char × Node)) :
    ∀ w ∈ verseWordsF fuel kvs, WordOk w := by
  obtain ⟨-, new, hw, ho⟩ := verseTopLoopF_stepOk fuel kvs initState
  intro w hmem
  unfold verseWordsF at hmem
  rw [hw] at hmem
  exact ho w (by simpa [initState] using hmem)

/-! ## Lemmas about the post-filter -/

/-- Every surviving word comes from a raw word, with every field except
position and metadata copied and the metadata rebuilt by `outMeta`. -/
theorem postFilterGo_mem : ∀ (ws : List WordEntry) (p : Nat) (w' : WordEntry),
    w' ∈ postFilterGo ws p → ∃ w ∈ ws, ∃ q, w' = filteredWord q w
  | [], p, w', h => by simp [postFilterGo] at h
  | w :: ws, p, w', h => by
    unfold postFilterGo at h
    split at h
    · obtain ⟨w0, hw0, q, hq⟩ := postFilterGo_mem ws p w' h
      exact ⟨w0, List.mem_cons_of_mem _ hw0, q, hq⟩
    · rcases List.mem_cons.mp h with h | h
      · exact ⟨w, List.mem_cons_self .., p, h⟩
      · obtain ⟨w0, hw0, q, hq⟩ := postFilterGo_mem ws (p + 1) w' h
        exact ⟨w0, List.mem_cons_of_mem _ hw0, q, hq⟩

/-- The survivors' positions are the contiguous run from the start
position. -/
theorem postFilterGo_positions : ∀ (ws : List WordEntry) (p : Nat),
    (postFilterGo ws p).map (fun w => w.position) =
      List.range' p (postFilterGo ws p).length
  | [], p => rfl
  | w :: ws, p => by
    unfold postFilterGo
    split
    · exact postFilterGo_positions ws p
    · simp only [List.map_cons, List.length_cons]
      rw [postFilterGo_positions ws (p + 1)]
      rfl

/-! ## The claims -/

/-- Claim C1: `extractStrongs` returns the left-to-right,
non-deduplicated list of matches of an optional `strong:`/`strongs:`
marker, an optional H/G prefix letter (defaulting to `H` when absent,
uppercased otherwise), and a run of one to five decimal digits rendered
without leading zeros; in particular the lemma `1` gives `H1`, `1471 a`
gives `H1471` (the trailing disambiguation letter is not consumed and
does not block the match), `b/990` gives `H990`, and the digit-free
lemmas `l` and `c/l` give the empty list. -/
theorem C1_extractStrongs :
    (extractStrongs (some ("1".toList)) = [("H1".toList)] ∧
     extractStrongs (some ("1471 a".toList)) = [("H1471".toList)] ∧
     extractStrongs (some ("b/990".toList)) = [("H990".toList)] ∧
     extractStrongs (some ("l".toList)) = [] ∧
     extractStrongs (some ("c/l".toList)) = []) ∧
    (∀ (v : Option (List Char)) (t : List Char), t ∈ extractStrongs v →
      ∃ c n, (c = 'H' ∨ c = 'G') ∧ n < 100000 ∧ t = c :: Nat.toDigits 10 n) := by
  constructor
  · exact ⟨by decide, by decide, by decide, by decide, by decide⟩
  · intro v t ht
    cases v with
    | none => simp [extractStrongs] at ht
    | some s =>
      have hrw : extractStrongs (some s) =
          if s.isEmpty then [] else (scanStrongs s.length s).filterMap processToken := rfl
      rw [hrw] at ht
      split at ht
      · exact absurd ht (by simp)
      · obtain ⟨tok, -, htok⟩ := List.mem_filterMap.mp ht
        exact processToken_shape tok t htok

/-- Witness for C1: the general shape statement applied to the concrete
lemma `12`. -/
theorem C1_extractStrongs_witness :
    (("H12".toList) ∈ extractStrongs (some ("12".toList))) ∧
    ∃ c n, (c = 'H' ∨ c = 'G') ∧ n < 100000 ∧ ("H12".toList) = c :: Nat.toDigits 10 n :=
  ⟨by decide, C1_extractStrongs.2 (some ("12".toList)) ("H12".toList) (by decide)⟩

/-- Claim C2 counterexample: the claim says that during the tree walk
of any verse subtree a `catchWord` child is never recursed into and a
`note` child contributes only through its `rdg` children.  But the
per-verse loop of `parseOsis` dispatches the verse root's own children
with no interception beyond attribute keys, so a `catchWord` child of
the verse root is walked (emitting the word `abc`) and a note child's
own inline text is emitted (the word `hello`). -/
theorem C2_counterexample :
    (verseWordsF 8 exRootNote).map (fun w => w.text) = [("abc".toList), ("hello".toList)] := by
  decide

/-- Claim C2 (amended): within the element child iteration of the walk
(`extractWords`, i.e. every element below the verse root), a child key
equal to `catchWord` is never recursed into — removing such an entry
does not change the walk — and a `note` child is intercepted: an
object note with no `rdg` key contributes nothing, and one with an
`rdg` key contributes exactly the variant processing of that value, so
the rest of the note body contributes zero word entries.  At the verse
root itself the dispatch skips only attribute keys. -/
theorem C2_amended_childDispatch :
    (∀ (walk : Node → WalkState → WalkState) (pre post : List (List Char × Node))
        (v : Node) (s : WalkState),
        walkKVs walk (pre ++ (keyCatchWord, v) :: post) s = walkKVs walk (pre ++ post) s) ∧
    (∀ (walk : Node → WalkState → WalkState) (kvs : List (List Char × Node)) (s : WalkState),
        lookupNode kvs keyRdg = none → processNote walk (.obj kvs) s = s) ∧
    (∀ (walk : Node → WalkState → WalkState) (kvs : List (List Char × Node)) (rv : Node)
        (s : WalkState), lookupNode kvs keyRdg = some rv →
        processNote walk (.obj kvs) s = if nodeTruthy rv then processRdg walk rv s else s) := by
  refine ⟨?_, ?_, ?_⟩
  · intro walk pre post v s
    unfold walkKVs
    rw [List.foldl_append, List.foldl_append, List.foldl_cons]
    have hstep : childStep walk keyCatchWord v (List.foldl
        (fun st kv => childStep walk kv.1 kv.2 st) s pre) =
        List.foldl (fun st kv => childStep walk kv.1 kv.2 st) s pre := by
      unfold childStep
      rw [if_pos rfl]
    rw [hstep]
  · intro walk kvs s h
    show (match lookupNode kvs keyRdg with
      | some rv => if nodeTruthy rv then processRdg walk rv s else s
      | none => s) = s
    rw [h]
  · intro walk kvs rv s h
    show (match lookupNode kvs keyRdg with
      | some rv => if nodeTruthy rv then processRdg walk rv s else s
      | none => s) = if nodeTruthy rv then processRdg walk rv s else s
    rw [h]

/-- Witness for the amended C2: a note object without an `rdg` key
contributes nothing. -/
theorem C2_amended_witness :
    lookupNode [] keyRdg = none ∧
    processNote (extractWordsF 4) (.obj []) initState = initState :=
  ⟨rfl, C2_amended_childDispatch.2.1 (extractWordsF 4) [] initState rfl⟩

/-- Claim C3: on the Gen 8:17 tree the walk emits exactly two words
with lemma `3318`, the first tagged `ketiv`, the second tagged `qere`,
neither with a null lemma; and in general the variant of an emitted
word is `ketiv` when the element type is `x-ketiv`, else `qere` exactly
when the inside-qere flag is set, else absent. -/
theorem C3_gen817_ketivQere :
    (((verseWordsF 32 gen817).filter (fun w => w.lemma' = some ("3318".toList))).map
        (fun w => (w.variant, w.lemma')) =
      [(some Variant.ketiv, some ("3318".toList)),
       (some Variant.qere, some ("3318".toList))]) ∧
    (∀ (ty : Option (List Char)) (q : Bool),
      mkVariant ty q = if ty = some ("x-ketiv".toList) then some Variant.ketiv
        else if q then some Variant.qere else none) :=
  ⟨by decide, fun _ _ => rfl⟩

/-- Whether a node is an object reading typed `x-qere` (the only kind
the `rdg` handler walks). -/
def rdgIsQere (v : Node) : Bool :=
  match v with
  | .obj kvs => getAttr kvs keyType = some valQere
  | _ => false

/-- Claim C4: a reading-variant node whose type is not `x-qere` leaves
the walk state exactly unchanged — its subtree contributes zero word
entries and is not walked; concretely, the Exod 20:2 tree with four
`x-accent` notes yields exactly its nine `w` words, all with lemmas. -/
theorem C4_nonQereRdg :
    (∀ (walk : Node → WalkState → WalkState) (v : Node) (s : WalkState),
        rdgIsQere v = false → processRdgOne walk v s = s) ∧
    ((verseWordsF 32 exod202).length = 9 ∧
     (verseWordsF 32 exod202).all (fun w => !w.lemma'.isNone) = true) := by
  constructor
  · intro walk v s h
    cases v with
    | str t => rfl
    | arr l => rfl
    | obj kvs =>
      have h' : ¬(getAttr kvs keyType = some valQere) := by
        simpa [rdgIsQere] using h
      show (if getAttr kvs keyType = some valQere then
          { walk (Node.obj kvs) { s with insideQere := true } with insideQere := s.insideQere }
        else s) = s
      rw [if_neg h']
  · exact ⟨by decide, by decide⟩

/-- Witness for C4: the concrete `x-accent` reading of Exod 20:2 leaves
the initial state untouched. -/
theorem C4_nonQereRdg_witness :
    rdgIsQere accentRdgNode = false ∧
    processRdgOne (extractWordsF 8) accentRdgNode initState = initState :=
  ⟨by decide, C4_nonQereRdg.1 (extractWordsF 8) accentRdgNode initState (by decide)⟩

/-- Claim C5: processing an `x-qere` reading restores the inside-qere
flag to exactly the saved value afterwards (whatever the recursive walk
does), every run of the walker preserves the flag, and consequently in
a verse with a qere note followed by a plain word the later word
carries no variant tag. -/
theorem C5_qereFlagRestore :
    (∀ (walk : Node → WalkState → WalkState) (v : Node) (s : WalkState),
        (processRdgOne walk v s).insideQere = s.insideQere) ∧
    (∀ (fuel : Nat) (n : Node) (s : WalkState),
        (extractWordsF fuel n s).insideQere = s.insideQere) ∧
    ((verseWordsF 16 exFlagRestore).map (fun w => (w.text, w.variant)) =
      [(("קָרָא".toList), some Variant.qere), (("בַּיִת".toList), none)]) := by
  refine ⟨?_, ?_, by decide⟩
  · intro walk v s
    cases v with
    | str t => rfl
    | arr l => rfl
    | obj kvs =>
      show (if getAttr kvs keyType = some valQere then
          { walk (Node.obj kvs) { s with insideQere := true } with insideQere := s.insideQere }
        else s).insideQere = s.insideQere
      by_cases hq : getAttr kvs keyType = some valQere
      · rw [if_pos hq]
      · rw [if_neg hq]
  · intro fuel n s
    exact (extractWordsF_stepOk fuel n s).1

/-- Claim C6: after post-filtering, the survivors' position fields form
the contiguous ascending run starting at 1, whatever was dropped. -/
theorem C6_positions (ws : List WordEntry) :
    (postFilter ws).map (fun w => w.position) = List.range' 1 (postFilter ws).length :=
  postFilterGo_positions ws 1

/-- Claim C7: the verse-level text of the saved record is exactly the
surviving words' texts joined by single spaces, in final order. -/
theorem C7_textJoin (ws : List WordEntry) :
    (saveVerseData ws).text = joinSpace ((saveVerseData ws).words.map (fun w => w.text)) := rfl

/-- Claim C8: no word the walk ever emits — and hence no word of the
final record — has a text equal to the single maqqef character. -/
theorem C8_noMaqqef (fuel : Nat) (kvs : List (List Char × Node)) :
    (∀ w ∈ verseWordsF fuel kvs, w.text ≠ [MAQQEF]) ∧
    (∀ w ∈ postFilter (verseWordsF fuel kvs), w.text ≠ [MAQQEF]) := by
  constructor
  · intro w hw
    exact (verseWordsF_ok fuel kvs w hw).1
  · intro w hw
    obtain ⟨w0, hw0, q, rfl⟩ := postFilterGo_mem _ _ _ hw
    exact (verseWordsF_ok fuel kvs w0 hw0).1

/-- The single raw word of `exOneWord`. -/
def exOneWordEntry : WordEntry :=
  { position := 1, text := "אוֹר".toList, lemma' := some ("216".toList),
    morph := some ("HNcbsa".toList), strongs := some [("H216".toList)],
    variant := none, metadata := none,
    source := some ⟨some ("216".toList), some ("HNcbsa".toList), none⟩ }

/-- Witness for C8: the concrete word of a one-word verse. -/
theorem C8_noMaqqef_witness :
    exOneWordEntry ∈ verseWordsF 8 exOneWord ∧ exOneWordEntry.text ≠ [MAQQEF] :=
  ⟨by decide, (C8_noMaqqef 8 exOneWord).1 exOneWordEntry (by decide)⟩

/-- Claim C9: every survivor of the post-filter whose lemma is present
and contains no decimal digit carries `isPrefixOnly` metadata and no
Strong's list. -/
theorem C9_prefixOnly (fuel : Nat) (kvs : List (List Char × Node)) (w : WordEntry)
    (l : List Char) (hmem : w ∈ postFilter (verseWordsF fuel kvs))
    (hl : w.lemma' = some l) (hd : l.any isDigitC = false) :
    w.metadata = some { isPrefixOnly := true } ∧ w.strongs = none := by
  obtain ⟨w0, hw0, q, rfl⟩ := postFilterGo_mem _ _ _ hmem
  have hok := verseWordsF_ok fuel kvs w0 hw0
  have hl0 : w0.lemma' = some l := hl
  have hne : l ≠ [] := by
    intro h
    exact hok.2.1 (by rw [hl0, h])
  constructor
  · show some (outMeta w0) = some { isPrefixOnly := true }
    have hcond : (jsTruthyStr w0.lemma' && !(w0.lemma'.getD []).any isDigitC) = true := by
      rw [hl0]
      simp [jsTruthyStr, hne, hd]
    simp [outMeta, hcond]
  · exact hok.2.2.2 l hl0 hd

/-- The prefix-only word of `exPrefixOnly` after post-filtering. -/
def exPrefixWord : WordEntry :=
  { position := 2, text := "לָהּ".toList, lemma' := some ("l".toList),
    morph := some ("HR/Sp3fs".toList), strongs := none, variant := none,
    metadata := some ⟨true⟩,
    source := some ⟨some ("l".toList), some ("HR/Sp3fs".toList), none⟩ }

/-- Witness for C9: the concrete `l`-lemma word survives the filter
flagged prefix-only with no Strong's list. -/
theorem C9_prefixOnly_witness :
    exPrefixWord ∈ postFilter (verseWordsF 8 exPrefixOnly) ∧
    exPrefixWord.metadata = some { isPrefixOnly := true } ∧ exPrefixWord.strongs = none :=
  ⟨by decide,
   C9_prefixOnly 8 exPrefixOnly exPrefixWord ("l".toList) (by decide) (by decide) (by decide)⟩

/-- Claim C10: a verse element whose traversal yields zero word entries
produces no record at all in `parseOsis`. -/
theorem C10_emptySkipped (fuel : Nat) (kvs : List (List Char × Node))
    (h : verseWordsF fuel kvs = []) : parseVerseRecF fuel kvs = none := by
  simp [parseVerseRecF, h]

/-- Witness for C10: a verse holding only an `x-sof-pasuq` segment. -/
theorem C10_emptySkipped_witness :
    verseWordsF 8 exSegOnly = [] ∧ parseVerseRecF 8 exSegOnly = none :=
  ⟨by decide, C10_emptySkipped 8 exSegOnly (by decide)⟩

end OhbImport
